import Mathlib

set_option maxHeartbeats 1000000

/-!
Shallow embedding of `src/heap_allocator.rs` (crate `libdebug`).

Machine pointers (`*mut c_void`) and `usize`/`size_t` values are modelled as
`Nat` addresses; the `as i32` casts that the source performs inside
`HeapAllocation::distance_to` and in the gap comparison of
`Heap::next_for_size` are modelled exactly by `toI32` (two's-complement
truncation to 32 bits, read back as a signed integer).
-/

/-- `struct HeapAllocation`: one live allocation inside a heap.
`ptr` is the start address, `real_size` the size the caller requested,
`alloc_size` the (aligned) size actually reserved. -/
structure HeapAllocation where
  ptr : Nat
  real_size : Nat
  alloc_size : Nat
deriving DecidableEq

/-- Rust's `as i32` cast applied to an unsigned machine value: truncate to
32 bits and reinterpret in two's complement. -/
def toI32 (n : Nat) : Int :=
  if n % 4294967296 < 2147483648 then ((n % 4294967296 : Nat) : Int)
  else ((n % 4294967296 : Nat) : Int) - 4294967296

/-- `HeapAllocation::start`: the pointer as an address. -/
def HeapAllocation.start (a : HeapAllocation) : Nat := a.ptr

/-- `HeapAllocation::end` (`end` is a Lean keyword, hence `endAddr`):
`start + alloc_size`. -/
def HeapAllocation.endAddr (a : HeapAllocation) : Nat := a.start + a.alloc_size

/-- `HeapAllocation::distance_to`: `other.start() as i32 - self.end() as i32`. -/
def HeapAllocation.distance_to (a other : HeapAllocation) : Int :=
  toI32 other.start - toI32 a.endAddr

/-- `struct Heap`: a region with base pointer `ptr`, capacity `size`, and the
ordered list of live allocation records. -/
structure Heap where
  ptr : Nat
  size : Nat
  allocations : List HeapAllocation
deriving DecidableEq

/-- `Heap::new(size)`: the base pointer is whatever `libc::malloc(size)`
returns, so the model takes it as the parameter `base`. -/
def Heap.new (base size : Nat) : Heap := ⟨base, size, []⟩

/-- `Heap::end`: `ptr as usize + size`. -/
def Heap.endAddr (h : Heap) : Nat := h.ptr + h.size

/-- `Heap::align`: `size + (size % 4)`. -/
def Heap.align (size : Nat) : Nat := size + size % 4

/-- `Heap::used_space`: sum of `alloc_size` over all records. -/
def Heap.used_space (h : Heap) : Nat :=
  (h.allocations.map HeapAllocation.alloc_size).sum

/-- `Heap::free_space`: `size - used_space` (`Nat` subtraction; the source's
`usize` subtraction would panic exactly where this truncates). -/
def Heap.free_space (h : Heap) : Nat := h.size - h.used_space

/-- The `for` loop of `Heap::next_for_size`: `ptr` is the running pointer
(advanced by each record's `alloc_size`), `previous` the previously visited
record, `index` the enumeration index of the current record. On a fitting
gap it returns `(previous.end, index)`; when the list is exhausted it
returns the accumulated pointer and the total record count. -/
def nextForSizeGo (size : Nat) (ptr : Nat) (previous : Option HeapAllocation)
    (index : Nat) : List HeapAllocation → Nat × Nat
  | [] => (ptr, index)
  | allocation :: rest =>
    match previous with
    | some prev =>
      if prev.distance_to allocation ≥ toI32 size then
        (prev.endAddr, index)
      else
        nextForSizeGo size (ptr + allocation.alloc_size) (some allocation)
          (index + 1) rest
    | none =>
      nextForSizeGo size (ptr + allocation.alloc_size) (some allocation)
        (index + 1) rest

/-- `Heap::next_for_size`. -/
def Heap.next_for_size (h : Heap) (size : Nat) : Nat × Nat :=
  nextForSizeGo size h.ptr none 0 h.allocations

/-- `Heap::allocate`: align the size, pick a placement, fail with the null
address `0` if it would run past the region end, otherwise insert the new
record at the returned index and return its address. -/
def Heap.allocate (h : Heap) (size : Nat) : Nat × Heap :=
  let alloc_size := Heap.align size
  let pi := h.next_for_size alloc_size
  if pi.1 + alloc_size > h.endAddr then
    (0, h)
  else
    (pi.1, { h with allocations := h.allocations.insertIdx pi.2 ⟨pi.1, size, alloc_size⟩ })

/-- The search loop of `Heap::free`: first record with a matching `ptr` gives
its index; the scan stops early (returning `none`) at the first record whose
address exceeds the target. -/
def findFreeIndexGo (ptr : Nat) (idx : Nat) : List HeapAllocation → Option Nat
  | [] => none
  | allocation :: rest =>
    if allocation.ptr = ptr then some idx
    else if allocation.ptr > ptr then none
    else findFreeIndexGo ptr (idx + 1) rest

/-- `Heap::free`: remove the record found by the scan, or do nothing. -/
def Heap.free (h : Heap) (ptr : Nat) : Heap :=
  match findFreeIndexGo ptr 0 h.allocations with
  | some idx => { h with allocations := h.allocations.eraseIdx idx }
  | none => h

/-- `struct HeapAllocator`: an ordered sequence of heaps. -/
structure HeapAllocator where
  heaps : List Heap
deriving DecidableEq

/-- `HeapAllocator::init_heap`: push a new heap of the given size. -/
def HeapAllocator.init_heap (a : HeapAllocator) (base size : Nat) : HeapAllocator :=
  ⟨a.heaps ++ [Heap.new base size]⟩

/-- `HeapAllocator::allocate`: lazily create a 32768-byte heap when none
exists, then delegate to the first heap. `base` models the pointer
`libc::malloc` hands to `Heap::new` when the lazy default heap is created. -/
def HeapAllocator.allocate (a : HeapAllocator) (base size : Nat) : Nat × HeapAllocator :=
  match a.heaps with
  | [] =>
    let ph := (Heap.new base 32768).allocate size
    (ph.1, ⟨[ph.2]⟩)
  | h :: rest =>
    let ph := h.allocate size
    (ph.1, ⟨ph.2 :: rest⟩)

/-- `HeapAllocator::free`: same lazy provisioning, then delegate to the first
heap. -/
def HeapAllocator.free (a : HeapAllocator) (base ptr : Nat) : HeapAllocator :=
  match a.heaps with
  | [] => ⟨[(Heap.new base 32768).free ptr]⟩
  | h :: rest => ⟨h.free ptr :: rest⟩

/-- Repeated allocation of the same size, as in the crate's tests: the list
of returned addresses in call order, and the final heap. -/
def Heap.allocateN (h : Heap) (size : Nat) : Nat → List Nat × Heap
  | 0 => ([], h)
  | n + 1 =>
    let ph := h.allocate size
    let r := ph.2.allocateN size n
    (ph.1 :: r.1, r.2)

/-- The spec's sorted-and-disjoint invariant: records strictly ascending by
start address, and no two `[start, start + reserved)` ranges overlap. -/
def sortedDisjoint (l : List HeapAllocation) : Prop :=
  l.Pairwise fun a b => a.ptr < b.ptr ∧ (a.endAddr ≤ b.ptr ∨ b.endAddr ≤ a.ptr)

instance : DecidablePred sortedDisjoint := fun l =>
  List.instDecidablePairwise l

/-- Recursive form of the scan-and-remove performed by `Heap::free`:
`freeScan_spec` below proves it computes exactly the record list that
`Heap.free` leaves behind. -/
def freeScan (p : Nat) : List HeapAllocation → List HeapAllocation
  | [] => []
  | a :: rest =>
    if a.ptr = p then rest
    else if a.ptr > p then a :: rest
    else a :: freeScan p rest

/-- `Heap.allocate` never changes the region's base pointer or capacity. -/
theorem Heap.allocate_size_ptr (h : Heap) (s : Nat) :
    ((h.allocate s).2).size = h.size ∧ ((h.allocate s).2).ptr = h.ptr := by
  simp only [Heap.allocate]
  split <;> exact ⟨rfl, rfl⟩

/-- `Heap.free` never changes the region's base pointer or capacity. -/
theorem Heap.free_size_ptr (h : Heap) (p : Nat) :
    ((h.free p)).size = h.size ∧ ((h.free p)).ptr = h.ptr := by
  simp only [Heap.free]
  split <;> exact ⟨rfl, rfl⟩

/-- C4: the reserved size computed by `align` is exactly
`n + (n mod 4)`, and is therefore at least the requested size `n`. -/
theorem Heap.align_spec (n : Nat) :
    Heap.align n = n + n % 4 ∧ n ≤ Heap.align n :=
  ⟨rfl, Nat.le_add_right n (n % 4)⟩

/-- C1: the sorted-and-disjoint invariant is NOT maintained by every
allocate/free sequence. From a fresh region at base 65536 with capacity
32768, the sequence allocate 2048, allocate 2048, free 65536,
allocate 2048 ends with two overlapping records both starting at 67584
(the trailing-placement computation of `next_for_size` advances the running
pointer by the sum of reserved sizes from the base, which no longer points
past the last record once an unfilled gap exists). -/
theorem free_then_allocate_breaks_invariant :
    (((((Heap.mk 65536 32768 []).allocate 2048).2.allocate 2048).2.free
            65536).allocate 2048).2.allocations
        = [⟨67584, 2048, 2048⟩, ⟨67584, 2048, 2048⟩]
    ∧ ¬ sortedDisjoint [(⟨67584, 2048, 2048⟩ : HeapAllocation), ⟨67584, 2048, 2048⟩] := by
  decide

/-- C2: counterexample. In the region at base 65536 of capacity 32768 whose
single record sits at 67584 (reachable by allocate 2048, allocate 2048,
free 65536), there is no internal gap at all, yet `next_for_size 2048`
returns 67584, which is not the last record's end address 69632. -/
theorem next_for_size_not_after_last :
    (Heap.next_for_size ⟨65536, 32768, [⟨67584, 2048, 2048⟩]⟩ 2048).1 ≠
      HeapAllocation.endAddr ⟨67584, 2048, 2048⟩ := by
  decide

/-- C5: counterexample. For the region whose base pointer is the null
address 0 (what `Heap::new` builds when `libc::malloc` returns null), an
`allocate 2048` call returns the null sentinel even though the placement
plus aligned size does not exceed `base + capacity` and the call in fact
succeeded (it inserted a record). -/
theorem allocate_null_without_exhaustion :
    (Heap.allocate ⟨0, 32768, []⟩ 2048).1 = 0
    ∧ (Heap.next_for_size ⟨0, 32768, []⟩ (Heap.align 2048)).1 + Heap.align 2048
        ≤ 0 + 32768
    ∧ (Heap.allocate ⟨0, 32768, []⟩ 2048).2 ≠ (⟨0, 32768, []⟩ : Heap) := by
  decide

/-- C9: counterexample. On the null-base region, `allocate 4` returns the
null sentinel value 0 while still inserting a record, so a sentinel return
does not imply an unchanged record list for every region state. -/
theorem allocate_null_yet_insertion :
    (Heap.allocate ⟨0, 32768, []⟩ 4).1 = 0
    ∧ (Heap.allocate ⟨0, 32768, []⟩ 4).2.allocations = [⟨0, 4, 4⟩] := by
  decide

/-- C6: counterexample. On the reachable state produced by allocate 2048,
allocate 2048, free 65536, allocate 2048 from a fresh region at base 65536
(which holds two records with the same start 67584), freeing 67584 twice in
a row removes a record both times: the state after the second free differs
from the state after the first. -/
theorem double_free_not_idempotent :
    ((((((Heap.mk 65536 32768 []).allocate 2048).2.allocate 2048).2.free
            65536).allocate 2048).2.free 67584).free 67584
      ≠ (((((Heap.mk 65536 32768 []).allocate 2048).2.allocate 2048).2.free
            65536).allocate 2048).2.free 67584 := by
  decide

/-- C10: on a fresh region with non-null base `b` and any capacity `c`,
`allocate 0` succeeds: it returns the base address and inserts a record
with requested size 0 and reserved size 0. -/
theorem Heap.allocate_zero (b c : Nat) (hb : 0 < b) :
    Heap.allocate ⟨b, c, []⟩ 0 = (b, ⟨b, c, [⟨b, 0, 0⟩]⟩) ∧ b ≠ 0 := by
  constructor
  · simp [Heap.allocate, Heap.next_for_size, nextForSizeGo, Heap.align, Heap.endAddr]
  · omega

/-- Witness for `Heap.allocate_zero` at base 4, capacity 0. -/
theorem Heap.allocate_zero_witness :
    Heap.allocate ⟨4, 0, []⟩ 0 = (4, ⟨4, 0, [⟨4, 0, 0⟩]⟩) ∧ (4 : Nat) ≠ 0 :=
  Heap.allocate_zero 4 0 (by decide)

/-- C8: an allocator whose heap sequence starts with `h0` delegates both
`allocate` and `free` to `h0` alone: the result is computed from `h0`, the
first heap is replaced by the updated `h0`, and every other heap is left
unchanged. -/
theorem HeapAllocator.only_first_heap (h0 : Heap) (rest : List Heap)
    (base s p : Nat) :
    (HeapAllocator.allocate ⟨h0 :: rest⟩ base s).1 = (h0.allocate s).1
    ∧ (HeapAllocator.allocate ⟨h0 :: rest⟩ base s).2.heaps
        = (h0.allocate s).2 :: rest
    ∧ HeapAllocator.free ⟨h0 :: rest⟩ base p = ⟨h0.free p :: rest⟩ :=
  ⟨rfl, rfl, rfl⟩

/-- C7: an allocator with zero heaps creates exactly one heap, of the
default capacity 32768, on its first `allocate` or `free` call, and the
call is answered by that freshly created heap; a second `allocate` call
does not create another heap. -/
theorem HeapAllocator.lazy_provisioning (a : HeapAllocator)
    (base base2 s s2 p : Nat) (h0 : a.heaps = []) :
    (a.allocate base s).2.heaps.length = 1
    ∧ ((a.allocate base s).2.heaps.getD 0 (Heap.new 0 0)).size = 32768
    ∧ (a.allocate base s).1 = ((Heap.new base 32768).allocate s).1
    ∧ (a.free base p).heaps.length = 1
    ∧ ((a.free base p).heaps.getD 0 (Heap.new 0 0)).size = 32768
    ∧ ((a.allocate base s).2.allocate base2 s2).2.heaps.length = 1 := by
  obtain ⟨heaps⟩ := a
  cases h0
  refine ⟨rfl, ?_, rfl, rfl, ?_, rfl⟩
  · simpa using (Heap.allocate_size_ptr (Heap.new base 32768) s).1
  · simpa using (Heap.free_size_ptr (Heap.new base 32768) p).1

/-- Witness for `HeapAllocator.lazy_provisioning` on the empty allocator. -/
theorem HeapAllocator.lazy_provisioning_witness :
    (HeapAllocator.allocate ⟨[]⟩ 8 4).2.heaps.length = 1
    ∧ ((HeapAllocator.allocate ⟨[]⟩ 8 4).2.heaps.getD 0 (Heap.new 0 0)).size = 32768
    ∧ (HeapAllocator.allocate ⟨[]⟩ 8 4).1 = ((Heap.new 8 32768).allocate 4).1
    ∧ (HeapAllocator.free ⟨[]⟩ 8 8).heaps.length = 1
    ∧ ((HeapAllocator.free ⟨[]⟩ 8 8).heaps.getD 0 (Heap.new 0 0)).size = 32768
    ∧ ((HeapAllocator.allocate ⟨[]⟩ 8 4).2.allocate 8 4).2.heaps.length = 1 :=
  HeapAllocator.lazy_provisioning ⟨[]⟩ 8 8 4 4 8 rfl

/-- For values below `2^31` the `as i32` cast is the identity. -/
theorem toI32_of_lt {n : Nat} (h : n < 2147483648) : toI32 n = (n : Int) := by
  unfold toI32
  rw [Nat.mod_eq_of_lt (by omega)]
  rw [if_pos h]

/-- Below `2^31` the source's `i32` gap comparison agrees with the intended
arithmetic one: the gap between `prev` and `b` holds `s` bytes. -/
theorem distance_to_ge_iff {prev b : HeapAllocation} {s : Nat}
    (h1 : prev.endAddr < 2147483648) (h2 : b.start < 2147483648)
    (hs : s < 2147483648) :
    prev.distance_to b ≥ toI32 s ↔ prev.endAddr + s ≤ b.start := by
  unfold HeapAllocation.distance_to
  rw [toI32_of_lt h1, toI32_of_lt h2, toI32_of_lt hs]
  omega

/-- Unfolding equation of the `next_for_size` loop when a previous record is
in hand. -/
theorem nextForSizeGo_cons (s ptr idx : Nat) (prev allocation : HeapAllocation)
    (rest : List HeapAllocation) :
    nextForSizeGo s ptr (some prev) idx (allocation :: rest)
      = if prev.distance_to allocation ≥ toI32 s then (prev.endAddr, idx)
        else nextForSizeGo s (ptr + allocation.alloc_size) (some allocation)
          (idx + 1) rest := rfl

/-- Unfolding equation of the `next_for_size` loop on the first record. -/
theorem nextForSizeGo_none_cons (s ptr idx : Nat) (allocation : HeapAllocation)
    (rest : List HeapAllocation) :
    nextForSizeGo s ptr none idx (allocation :: rest)
      = nextForSizeGo s (ptr + allocation.alloc_size) (some allocation)
        (idx + 1) rest := rfl

/-- First-fit behaviour of the `next_for_size` loop once a previous record is
in hand: if position `i` (counting pairs from `prev`) is the first fitting
gap, the loop returns the end address of the left neighbour of that gap and
the enumeration index of its right neighbour. -/
theorem nextForSizeGo_first_fit (s : Nat) (hs : s < 2147483648) :
    ∀ (i : Nat) (prev : HeapAllocation) (l : List HeapAllocation) (ptr idx : Nat),
      (∀ r ∈ prev :: l, r.endAddr < 2147483648) →
      i < l.length →
      ((prev :: l).getD i ⟨0, 0, 0⟩).endAddr + s ≤ (l.getD i ⟨0, 0, 0⟩).start →
      (∀ j, j < i → (l.getD j ⟨0, 0, 0⟩).start
        < ((prev :: l).getD j ⟨0, 0, 0⟩).endAddr + s) →
      nextForSizeGo s ptr (some prev) idx l
        = (((prev :: l).getD i ⟨0, 0, 0⟩).endAddr, idx + i) := by
  intro i
  induction i with
  | zero =>
    intro prev l ptr idx hbound hlen hfit _
    match l, hlen with
    | b :: rest, _ =>
      have h1 : prev.endAddr < 2147483648 := hbound prev (by simp)
      have h2 : b.start < 2147483648 := by
        have := hbound b (by simp)
        unfold HeapAllocation.endAddr at this
        omega
      simp only [List.getD_cons_zero] at hfit ⊢
      rw [nextForSizeGo_cons, if_pos ((distance_to_ge_iff h1 h2 hs).mpr hfit)]
      simp
  | succ i ih =>
    intro prev l ptr idx hbound hlen hfit hfirst
    match l with
    | b :: rest =>
      have h1 : prev.endAddr < 2147483648 := hbound prev (by simp)
      have h2 : b.start < 2147483648 := by
        have := hbound b (by simp)
        unfold HeapAllocation.endAddr at this
        omega
      have hnot : b.start < prev.endAddr + s := by
        have := hfirst 0 (Nat.succ_pos i)
        simpa using this
      rw [nextForSizeGo_cons,
        if_neg (fun hg => absurd ((distance_to_ge_iff h1 h2 hs).mp hg) (by omega))]
      have hrec := ih b rest (ptr + b.alloc_size) (idx + 1)
        (fun r hr => hbound r (by simp at hr ⊢; tauto))
        (by simpa using hlen)
        (by simpa using hfit)
        (fun j hj => by
          have := hfirst (j + 1) (by omega)
          simpa using this)
      rw [hrec]
      simp only [List.getD_cons_succ, Prod.mk.injEq]
      exact ⟨by trivial, by omega⟩

/-- C3: the placement scan is first-fit over gaps: whenever position `i` is
the first adjacent pair of records whose gap holds the reserved size, the
scan returns the previous record's end address together with insertion
index `i + 1` (sizes below `2^31`, where the source's `i32` comparison is
exact). And concretely, after filling a fresh 32768-byte region at base
65536 with 16 allocations of 2048 and freeing the 9th (index 8, address
81920), the next `allocate 2048` returns exactly the freed address, the
record count returns to 16, and the records are sorted and disjoint. -/
theorem next_for_size_first_fit :
    (∀ (h : Heap) (s i : Nat),
      s < 2147483648 →
      (∀ r ∈ h.allocations, r.endAddr < 2147483648) →
      i + 1 < h.allocations.length →
      (h.allocations.getD i ⟨0, 0, 0⟩).endAddr + s
          ≤ (h.allocations.getD (i + 1) ⟨0, 0, 0⟩).start →
      (∀ j, j < i → (h.allocations.getD (j + 1) ⟨0, 0, 0⟩).start
          < (h.allocations.getD j ⟨0, 0, 0⟩).endAddr + s) →
      h.next_for_size s = ((h.allocations.getD i ⟨0, 0, 0⟩).endAddr, i + 1))
    ∧ (((Heap.allocateN ⟨65536, 32768, []⟩ 2048 16).1.getD 8 0 = 81920)
    ∧ ((((Heap.allocateN ⟨65536, 32768, []⟩ 2048 16).2.free 81920).allocate 2048).1
          = 81920)
    ∧ ((((Heap.allocateN ⟨65536, 32768, []⟩ 2048 16).2.free
          81920).allocate 2048).2.allocations.length = 16)
    ∧ sortedDisjoint (((Heap.allocateN ⟨65536, 32768, []⟩ 2048
          16).2.free 81920).allocate 2048).2.allocations) := by
  constructor
  · intro h s i hs hbound hlen hfit hfirst
    cases hl : h.allocations with
    | nil =>
      rw [hl] at hlen
      exact absurd hlen (by simp)
    | cons a rest =>
      rw [hl] at hbound hlen hfit hfirst
      unfold Heap.next_for_size
      rw [hl, nextForSizeGo_none_cons]
      rw [nextForSizeGo_first_fit s hs i a rest (h.ptr + a.alloc_size) 1
        hbound
        (by simpa using hlen)
        (by simpa using hfit)
        (fun j hj => by
          have := hfirst j hj
          simpa using this)]
      simp only [Prod.mk.injEq]
      exact ⟨by trivial, by omega⟩
  · decide

/-- Witness for the universal part of `next_for_size_first_fit`: in a region
at base 0 with records at 0 and 10 of reserved size 4 each, the first (and
only) gap holds 4 bytes, so `next_for_size 4` returns `(4, 1)`. -/
theorem next_for_size_first_fit_witness :
    Heap.next_for_size ⟨0, 100, [⟨0, 4, 4⟩, ⟨10, 4, 4⟩]⟩ 4
      = ((([⟨0, 4, 4⟩, ⟨10, 4, 4⟩] :
          List HeapAllocation).getD 0 ⟨0, 0, 0⟩).endAddr, 0 + 1) :=
  next_for_size_first_fit.1 ⟨0, 100, [⟨0, 4, 4⟩, ⟨10, 4, 4⟩]⟩ 4 0
    (by decide) (by decide) (by decide) (by decide)
    (fun j hj => absurd hj (Nat.not_lt_zero j))

/-- When no pair of adjacent records (starting from `prev`) has a gap that
holds `s` bytes, the `next_for_size` loop falls through and returns the
accumulated pointer — the incoming pointer plus the sum of the reserved
sizes of the remaining records — and the total index. -/
theorem nextForSizeGo_no_gap (s : Nat) (hs : s < 2147483648) :
    ∀ (l : List HeapAllocation) (prev : HeapAllocation) (ptr idx : Nat),
      (∀ r ∈ prev :: l, r.endAddr < 2147483648) →
      (∀ j, j + 1 < (prev :: l).length →
        ((prev :: l).getD (j + 1) ⟨0, 0, 0⟩).start
          < ((prev :: l).getD j ⟨0, 0, 0⟩).endAddr + s) →
      nextForSizeGo s ptr (some prev) idx l
        = (ptr + (l.map HeapAllocation.alloc_size).sum, idx + l.length) := by
  intro l
  induction l with
  | nil =>
    intro prev ptr idx _ _
    simp [nextForSizeGo]
  | cons b rest ih =>
    intro prev ptr idx hbound hno
    have h1 : prev.endAddr < 2147483648 := hbound prev (by simp)
    have h2 : b.start < 2147483648 := by
      have := hbound b (by simp)
      unfold HeapAllocation.endAddr at this
      omega
    have hnot : b.start < prev.endAddr + s := by
      have := hno 0 (by simp)
      simpa using this
    rw [nextForSizeGo_cons,
      if_neg (fun hg => absurd ((distance_to_ge_iff h1 h2 hs).mp hg) (by omega))]
    rw [ih b (ptr + b.alloc_size) (idx + 1)
      (fun r hr => hbound r (by simp at hr ⊢; tauto))
      (fun j hj => by
        have := hno (j + 1) (by simpa using hj)
        simpa using this)]
    simp only [List.map_cons, List.sum_cons, List.length_cons, Prod.mk.injEq]
    exact ⟨by omega, by omega⟩

/-- C2 (amended): when no internal gap between adjacent records holds the
reserved size, `next_for_size` returns the region's base address plus
`used_space` (the sum of all records' reserved sizes) — which is
`base_address` itself when the record list is empty, and equals the last
record's end address only when the records pack contiguously from the
base — together with the insertion index at the end of the sequence. -/
theorem next_for_size_no_gap (h : Heap) (s : Nat) (hs : s < 2147483648)
    (hbound : ∀ r ∈ h.allocations, r.endAddr < 2147483648)
    (hno : ∀ j, j + 1 < h.allocations.length →
      (h.allocations.getD (j + 1) ⟨0, 0, 0⟩).start
        < (h.allocations.getD j ⟨0, 0, 0⟩).endAddr + s) :
    h.next_for_size s = (h.ptr + h.used_space, h.allocations.length) := by
  cases hl : h.allocations with
  | nil =>
    unfold Heap.next_for_size Heap.used_space
    rw [hl]
    simp [nextForSizeGo]
  | cons a rest =>
    rw [hl] at hbound hno
    unfold Heap.next_for_size Heap.used_space
    rw [hl, nextForSizeGo_none_cons]
    rw [nextForSizeGo_no_gap s hs rest a (h.ptr + a.alloc_size) 1 hbound hno]
    simp only [List.map_cons, List.sum_cons, List.length_cons, Prod.mk.injEq]
    exact ⟨by omega, by omega⟩

/-- Witness for `next_for_size_no_gap`: a single record leaves no adjacent
pair at all, so in the region at base 65536 with one record at 67584 the
scan returns `65536 + 2048 = 67584` (not the record's end 69632) and
appends at index 1. -/
theorem next_for_size_no_gap_witness :
    Heap.next_for_size ⟨65536, 32768, [⟨67584, 2048, 2048⟩]⟩ 2048
      = ((⟨65536, 32768, [⟨67584, 2048, 2048⟩]⟩ : Heap).ptr
          + (⟨65536, 32768, [⟨67584, 2048, 2048⟩]⟩ : Heap).used_space,
         (⟨65536, 32768, [⟨67584, 2048, 2048⟩]⟩ : Heap).allocations.length) :=
  next_for_size_no_gap ⟨65536, 32768, [⟨67584, 2048, 2048⟩]⟩ 2048
    (by decide) (by decide)
    (fun j hj => absurd hj (by simp))

/-- The `next_for_size` loop never returns an address below the running
pointer's lower bound `base`, provided every record and the previous one
start at or above `base`. -/
theorem nextForSizeGo_ge (s base : Nat) :
    ∀ (l : List HeapAllocation) (ptr idx : Nat)
      (previous : Option HeapAllocation),
      base ≤ ptr →
      (∀ r ∈ l, base ≤ r.ptr) →
      (∀ a, previous = some a → base ≤ a.ptr) →
      base ≤ (nextForSizeGo s ptr previous idx l).1 := by
  intro l
  induction l with
  | nil =>
    intro ptr idx previous hptr _ _
    cases previous <;> exact hptr
  | cons b rest ih =>
    intro ptr idx previous hptr hin hprev
    have hb : base ≤ b.ptr := hin b (by simp)
    have hrest : ∀ r ∈ rest, base ≤ r.ptr := fun r hr => hin r (by simp [hr])
    have hstep : base ≤ ptr + b.alloc_size := le_trans hptr (Nat.le_add_right _ _)
    cases previous with
    | none =>
      rw [nextForSizeGo_none_cons]
      exact ih (ptr + b.alloc_size) (idx + 1) (some b) hstep hrest
        (fun a ha => by cases ha; exact hb)
    | some prev =>
      rw [nextForSizeGo_cons]
      split
      · have := hprev prev rfl
        unfold HeapAllocation.endAddr HeapAllocation.start
        exact le_trans this (Nat.le_add_right _ _)
      · exact ih (ptr + b.alloc_size) (idx + 1) (some b) hstep hrest
          (fun a ha => by cases ha; exact hb)

/-- The placement returned by `next_for_size` never lies below the region's
base address when all records start at or above the base. -/
theorem next_for_size_ge (h : Heap) (s : Nat)
    (hin : ∀ r ∈ h.allocations, h.ptr ≤ r.ptr) :
    h.ptr ≤ (h.next_for_size s).1 :=
  nextForSizeGo_ge s h.ptr h.allocations h.ptr 0 none le_rfl hin
    (fun _ ha => Option.noConfusion ha)

/-- C5 (amended): for every region whose base address is non-null and whose
records start at or above the base, `allocate` returns the null sentinel 0
exactly when the computed placement address plus the aligned size exceeds
`base_address + capacity`; and concretely, from an empty 32768-byte region
at base 65536, `allocate 2048` succeeds (returns non-null) exactly 16 times
and the 17th call returns the sentinel 0. -/
theorem allocate_fails_iff :
    (∀ (h : Heap) (s : Nat), 0 < h.ptr →
      (∀ r ∈ h.allocations, h.ptr ≤ r.ptr) →
      ((h.allocate s).1 = 0 ↔
        h.ptr + h.size < (h.next_for_size (Heap.align s)).1 + Heap.align s))
    ∧ (∀ i, i < 16 → (Heap.allocateN ⟨65536, 32768, []⟩ 2048 16).1.getD i 0 ≠ 0)
    ∧ ((Heap.allocateN ⟨65536, 32768, []⟩ 2048 16).2.allocate 2048).1 = 0 := by
  refine ⟨?_, by decide, by decide⟩
  intro h s hb hin
  have hge := next_for_size_ge h (Heap.align s) hin
  by_cases hc : (h.next_for_size (Heap.align s)).1 + Heap.align s > h.endAddr
  · simp only [Heap.allocate, if_pos hc]
    exact iff_of_true (by trivial) (by simpa [Heap.endAddr] using hc)
  · simp only [Heap.allocate, if_neg hc]
    unfold Heap.endAddr at hc
    exact iff_of_false (by omega) (by omega)

/-- Witness for the universal part of `allocate_fails_iff` at the full
region `⟨4, 0, []⟩`. -/
theorem allocate_fails_iff_witness :
    (Heap.allocate ⟨4, 0, []⟩ 4).1 = 0 ↔
      (⟨4, 0, []⟩ : Heap).ptr + (⟨4, 0, []⟩ : Heap).size
        < (Heap.next_for_size ⟨4, 0, []⟩ (Heap.align 4)).1 + Heap.align 4 :=
  allocate_fails_iff.1 ⟨4, 0, []⟩ 4 (by decide) (by decide)

/-- C9 (amended): for every region whose base address is non-null and whose
records start at or above the base, an `allocate` call that returns the
null sentinel leaves the region — its record list included — exactly as it
was. -/
theorem allocate_fail_unchanged (h : Heap) (s : Nat) (hb : 0 < h.ptr)
    (hin : ∀ r ∈ h.allocations, h.ptr ≤ r.ptr)
    (hz : (h.allocate s).1 = 0) :
    (h.allocate s).2 = h := by
  have hge := next_for_size_ge h (Heap.align s) hin
  by_cases hc : (h.next_for_size (Heap.align s)).1 + Heap.align s > h.endAddr
  · simp only [Heap.allocate, if_pos hc]
  · exfalso
    simp only [Heap.allocate, if_neg hc] at hz
    omega

/-- Witness for `allocate_fail_unchanged` at the full region `⟨4, 0, []⟩`. -/
theorem allocate_fail_unchanged_witness :
    (Heap.allocate ⟨4, 0, []⟩ 4).2 = (⟨4, 0, []⟩ : Heap) :=
  allocate_fail_unchanged ⟨4, 0, []⟩ 4 (by decide) (by decide) (by decide)

/-- The search index of `Heap::free` is invariant under shifting the start
index. -/
theorem findFreeIndexGo_shift (p : Nat) :
    ∀ (l : List HeapAllocation) (idx : Nat),
      findFreeIndexGo p idx l = (findFreeIndexGo p 0 l).map (· + idx) := by
  intro l
  induction l with
  | nil => intro idx; rfl
  | cons a rest ih =>
    intro idx
    by_cases h1 : a.ptr = p
    · simp [findFreeIndexGo, h1]
    · by_cases h2 : a.ptr > p
      · simp [findFreeIndexGo, h1, h2]
      · simp only [findFreeIndexGo, if_neg h1, if_neg h2]
        rw [ih (idx + 1), ih 1, Option.map_map]
        cases findFreeIndexGo p 0 rest
        · simp
        · simp
          omega

/-- If the scan of `Heap::free` finds no index, `freeScan` leaves the list
unchanged. -/
theorem freeScan_of_none (p : Nat) :
    ∀ l : List HeapAllocation, findFreeIndexGo p 0 l = none → freeScan p l = l := by
  intro l
  induction l with
  | nil => intro _; rfl
  | cons a rest ih =>
    intro hnone
    by_cases h1 : a.ptr = p
    · simp [findFreeIndexGo, h1] at hnone
    · by_cases h2 : a.ptr > p
      · simp [freeScan, h1, h2]
      · simp only [findFreeIndexGo, if_neg h1, if_neg h2,
          findFreeIndexGo_shift p rest 1] at hnone
        simp only [freeScan, if_neg h1, if_neg h2]
        rw [ih (by cases hE : findFreeIndexGo p 0 rest <;> simp [hE] at hnone ⊢)]

/-- `freeScan` is exactly what `Heap::free` does to the record list: erase
at the found index, or leave the list alone. -/
theorem freeScan_spec (p : Nat) :
    ∀ l : List HeapAllocation,
      (match findFreeIndexGo p 0 l with
        | some idx => l.eraseIdx idx
        | none => l) = freeScan p l := by
  intro l
  induction l with
  | nil => rfl
  | cons a rest ih =>
    by_cases h1 : a.ptr = p
    · simp [findFreeIndexGo, freeScan, h1]
    · by_cases h2 : a.ptr > p
      · simp [findFreeIndexGo, freeScan, h1, h2]
      · simp only [findFreeIndexGo, if_neg h1, if_neg h2,
          findFreeIndexGo_shift p rest 1, freeScan]
        cases hE : findFreeIndexGo p 0 rest with
        | none =>
          rw [hE] at ih
          simpa using ih
        | some k =>
          rw [hE] at ih
          simpa [List.eraseIdx_cons_succ] using ih

/-- `Heap.free` rewritten through `freeScan`: base pointer and capacity are
untouched and the record list is scanned-and-erased. -/
theorem Heap.free_eq (h : Heap) (p : Nat) :
    h.free p = ⟨h.ptr, h.size, freeScan p h.allocations⟩ := by
  rw [← freeScan_spec p h.allocations]
  unfold Heap.free
  cases hE : findFreeIndexGo p 0 h.allocations <;> rfl

/-- A list whose members all start strictly above `p` is untouched by
`freeScan p`. -/
theorem freeScan_of_all_gt (p : Nat) :
    ∀ l : List HeapAllocation, (∀ r ∈ l, p < r.ptr) → freeScan p l = l := by
  intro l
  induction l with
  | nil => intro _; rfl
  | cons a rest _ =>
    intro hgt
    have ha := hgt a (by simp)
    simp [freeScan, Nat.ne_of_gt ha, ha]

/-- On a record list strictly sorted by start address, the scan-and-remove
of `Heap::free` removes exactly the first (necessarily unique) record whose
start address equals the target. -/
theorem freeScan_eq_eraseP (p : Nat) :
    ∀ l : List HeapAllocation,
      (l.Pairwise fun a b => a.ptr < b.ptr) →
      freeScan p l = l.eraseP (fun r => r.ptr == p) := by
  intro l
  induction l with
  | nil => intro _; rfl
  | cons a rest ih =>
    intro hp
    obtain ⟨ha, hrest⟩ := List.pairwise_cons.mp hp
    by_cases h1 : a.ptr = p
    · rw [List.eraseP_cons_of_pos (by simp [h1])]
      simp [freeScan, h1]
    · rw [List.eraseP_cons_of_neg (by simp [h1])]
      by_cases h2 : a.ptr > p
      · have : rest.eraseP (fun r => r.ptr == p) = rest :=
          List.eraseP_of_forall_not (fun r hr => by
            have := ha r hr
            simp
            omega)
        simp [freeScan, h1, h2, this]
      · simp only [freeScan, if_neg h1, if_neg h2]
        rw [ih hrest]

/-- On a record list strictly sorted by start address, scanning-and-removing
the same address twice is the same as doing it once: the unique match is
gone after the first pass. -/
theorem freeScan_idem (p : Nat) :
    ∀ l : List HeapAllocation,
      (l.Pairwise fun a b => a.ptr < b.ptr) →
      freeScan p (freeScan p l) = freeScan p l := by
  intro l
  induction l with
  | nil => intro _; rfl
  | cons a rest ih =>
    intro hp
    obtain ⟨ha, hrest⟩ := List.pairwise_cons.mp hp
    by_cases h1 : a.ptr = p
    · simp only [freeScan, if_pos h1]
      exact freeScan_of_all_gt p rest (fun r hr => h1 ▸ ha r hr)
    · by_cases h2 : a.ptr > p
      · simp [freeScan, h1, h2]
      · simp only [freeScan, if_neg h1, if_neg h2]
        rw [ih hrest]

/-- C6 (amended): on every region whose records are strictly sorted by
start address (as every state satisfying the intended invariant is),
`free` removes exactly the first record whose start address equals the
given address; when no record matches, the call is a silent no-op; and
freeing the same address twice in a row leaves the records after the
second call equal to the records after the first. -/
theorem Heap.free_correct (h : Heap) (p : Nat)
    (hs : h.allocations.Pairwise fun a b => a.ptr < b.ptr) :
    (h.free p).allocations = h.allocations.eraseP (fun r => r.ptr == p)
    ∧ ((∀ r ∈ h.allocations, r.ptr ≠ p) → h.free p = h)
    ∧ (h.free p).free p = h.free p := by
  refine ⟨?_, ?_, ?_⟩
  · rw [Heap.free_eq]
    exact freeScan_eq_eraseP p h.allocations hs
  · intro hno
    rw [Heap.free_eq,
      freeScan_of_none p h.allocations (by
        have : ∀ l : List HeapAllocation, (∀ r ∈ l, r.ptr ≠ p) →
            findFreeIndexGo p 0 l = none := by
          intro l
          induction l with
          | nil => intro _; rfl
          | cons a rest ih =>
            intro hn
            have ha := hn a (by simp)
            by_cases h2 : a.ptr > p
            · simp [findFreeIndexGo, ha, h2]
            · simp only [findFreeIndexGo, if_neg ha, if_neg h2,
                findFreeIndexGo_shift p rest 1,
                ih (fun r hr => hn r (by simp [hr]))]
              rfl
        exact this h.allocations hno)]
  · rw [Heap.free_eq h p, Heap.free_eq]
    dsimp only
    rw [freeScan_idem p h.allocations hs]

/-- Witness for `Heap.free_correct` on the sorted two-record region at base
0: freeing address 8 erases exactly the record at 8, and a second free of 8
changes nothing further. -/
theorem Heap.free_correct_witness :
    ((Heap.free ⟨0, 100, [⟨0, 4, 4⟩, ⟨8, 4, 4⟩]⟩ 8).allocations
        = ([⟨0, 4, 4⟩, ⟨8, 4, 4⟩] :
            List HeapAllocation).eraseP (fun r => r.ptr == 8))
    ∧ ((Heap.free ⟨0, 100, [⟨0, 4, 4⟩, ⟨8, 4, 4⟩]⟩ 8).free 8
        = Heap.free ⟨0, 100, [⟨0, 4, 4⟩, ⟨8, 4, 4⟩]⟩ 8) :=
  ⟨(Heap.free_correct ⟨0, 100, [⟨0, 4, 4⟩, ⟨8, 4, 4⟩]⟩ 8 (by decide)).1,
   (Heap.free_correct ⟨0, 100, [⟨0, 4, 4⟩, ⟨8, 4, 4⟩]⟩ 8 (by decide)).2.2⟩
